import Mathlib

/-!
Verification development for the deterministic sharded index-assignment and
iteration engine of `DistributedSamplingDataset` (src/src/text_data.py).

The Python/numpy code is shallowly embedded as executable Lean functions:

* numpy strided slices `a[start:stop:step]` / `a[start::step]` become
  `pySlice` / `pySliceFrom`, built from the every-`step`-th-element function
  `strideL`;
* `reshape((-1, d))` of an exactly divisible array becomes `chunks d`;
* `_build_global_indices` becomes `buildGlobalIndices` (returning `Option`,
  with `none` for a failed `assert`), parameterised by the numpy PRNG shuffle
  `npShuffle : Nat → List Nat → List Nat` (external library code, keyed by
  `seed + epoch` exactly as in the source; theorems that need it assume it
  permutes its input);
* the `total_size` computation of `__init__` becomes `numSamplesInt` /
  `totalSizeInt` (Python `math.ceil` of a true division is embedded as exact
  integer ceiling division `ceilDivInt`);
* the `uint32` memmap persistence of `_build_and_save_global_indices` becomes
  `buildAndSaveGlobalIndices`, with the raw little-endian byte encoding made
  explicit (`encodeU32LE` / `decodeU32LE`);
* the rank / worker slicing of `__iter__` becomes `startSlice`, `rankSlice`
  and `workerSlice`.

The regrouping operator `transposeFlat` (round-robin interleaving of the
per-worker or per-rank slices) formalises the reconstruction notion used by
the specification's partition-completeness and worker-batch-alignment
properties.
-/

namespace DistSampling

/-- Every `w`-th element of a list, starting from its head: the characteristic
function of a numpy slice with step `w`.  `strideAux w k l` skips `k` elements
before taking the next one. -/
def strideAux (w : Nat) : Nat → List α → List α
  | _, [] => []
  | 0, a :: t => a :: strideAux w (w - 1) t
  | k + 1, _ :: t => strideAux w k t

/-- Elements of `l` at positions `0, w, 2*w, ...`. -/
def strideL (w : Nat) (l : List α) : List α :=
  strideAux w 0 l

/-- Embedding of the Python slice `a[start::step]`. -/
def pySliceFrom (l : List α) (start step : Nat) : List α :=
  strideL step (l.drop start)

/-- Embedding of the Python slice `a[start:stop:step]` (for `step > 0`). -/
def pySlice (l : List α) (start stop step : Nat) : List α :=
  strideL step ((l.take stop).drop start)

/-- Fuel-driven worker for `chunks`; the fuel only serves to make the
recursion structural and is irrelevant once it is at least `l.length`. -/
def chunksF (d : Nat) : Nat → List α → List (List α)
  | _, [] => []
  | 0, _ :: _ => []
  | f + 1, a :: t => (a :: t).take d :: chunksF d f ((a :: t).drop d)

/-- Split a list into consecutive chunks of size `d` (the embedding of
`reshape((-1, d))` when `d` exactly divides the length). -/
def chunks (d : Nat) (l : List α) : List (List α) :=
  chunksF d l.length l

/-- Largest length among a list of lists. -/
def maxLen (lss : List (List α)) : Nat :=
  lss.foldr (fun l m => max l.length m) 0

/-- Fuel-driven worker for `transposeFlat`. -/
def transposeFlatF : Nat → List (List α) → List α
  | 0, _ => []
  | f + 1, lss =>
    if lss.all List.isEmpty then []
    else lss.filterMap List.head? ++ transposeFlatF f (lss.map List.tail)

/-- Round-robin interleaving: emits the first element of every (nonempty)
list, then the second element of every list, and so on.  Applied to per-rank
or per-worker slices it restores the round-robin assignment order. -/
def transposeFlat (lss : List (List α)) : List α :=
  transposeFlatF (maxLen lss) lss

/-- Regroup each worker's yielded index stream into size-`d` chunks and
splice the chunks back together in round-robin assignment order.  This is the
reconstruction the spec's worker-batch-alignment property talks about. -/
def reconstructWorkers (d : Nat) (outs : List (List Nat)) : List Nat :=
  (transposeFlat (outs.map (chunks d))).flatten

/-- Fuel-driven worker for `padChunks`. -/
def padChunksF (base : List Nat) : Nat → Nat → List (List Nat)
  | 0, _ => []
  | f + 1, p =>
    if p = 0 then []
    else base.take (min p base.length) :: padChunksF base f (p - min p base.length)

/-- The list of arrays appended by the padding `while` loop of
`_build_global_indices`: repeatedly take a prefix of `base` of size
`min padding (len base)` until `padding` is exhausted.  (The Python loop
does not terminate when `base` is empty and `padding > 0`; that state is
unreachable because `padding = 0` whenever the dataset is empty, and the
fuel makes the embedding total there.) -/
def padChunks (base : List Nat) (padding : Nat) : List (List Nat) :=
  padChunksF base padding padding

/-- Exact integer ceiling division: `ceilDivInt a b = ⌈a / b⌉` for `b > 0`.
Embeds Python's `math.ceil(a / b)` on integer inputs. -/
def ceilDivInt (a b : Int) : Int :=
  -((-a) / b)

/-- The `num_samples` computation of `DistributedSamplingDataset.__init__`:
`ceil((length - world_size) / world_size)` when `drop_last` and the length is
not evenly divisible, else `ceil(length / world_size)`. -/
def numSamplesInt (length ws : Nat) (dropLast : Bool) : Int :=
  if dropLast ∧ length % ws ≠ 0 then ceilDivInt ((length : Int) - (ws : Int)) (ws : Int)
  else ceilDivInt (length : Int) (ws : Int)

/-- `self.total_size = num_samples * self.world_size`. -/
def totalSizeInt (length ws : Nat) (dropLast : Bool) : Int :=
  numSamplesInt length ws dropLast * (ws : Int)

/-- `total_size` as a natural number (it is provably nonnegative). -/
def totalSizeNat (length ws : Nat) (dropLast : Bool) : Nat :=
  (totalSizeInt length ws dropLast).toNat

/-- The configuration state of a `DistributedSamplingDataset`, as set up by
`__init__`: the dataset is abstracted to its length. -/
structure Config where
  length : Nat
  globalBatchSize : Nat
  seed : Nat
  epoch : Nat
  startIndex : Nat
  shuffle : Bool
  dropLast : Bool
  worldSize : Nat
  rank : Nat
  localRank : Nat

/-- `self.device_batch_size = global_batch_size // self.world_size`. -/
def deviceBatchSize (c : Config) : Nat :=
  c.globalBatchSize / c.worldSize

/-- Lines 523–528 of `_build_global_indices`: `np.arange(len(dataset))`,
shuffled in place by the numpy PRNG seeded with `seed + epoch` when
`self.shuffle` is set. -/
def shuffledIndices (npShuffle : Nat → List Nat → List Nat) (c : Config) : List Nat :=
  if c.shuffle then npShuffle (c.seed + c.epoch) (List.range c.length)
  else List.range c.length

/-- Lines 530–542 of `_build_global_indices`: pad by repeating prefixes of
the (shuffled) index array until `total_size` is reached, or truncate to
`total_size`. -/
def paddedOrTruncated (c : Config) (indices : List Nat) : List Nat :=
  if !c.dropLast then
    indices ++ (padChunks indices (totalSizeNat c.length c.worldSize c.dropLast - indices.length)).flatten
  else
    indices.take (totalSizeNat c.length c.worldSize c.dropLast)

/-- `_build_global_indices`, with each failing `assert` embedded as `none`:
the entry `assert len(self.dataset) < np.iinfo(np.uint32).max` and the exit
`assert len(indices) == self.total_size`. -/
def buildGlobalIndices (npShuffle : Nat → List Nat → List Nat) (c : Config) : Option (List Nat) :=
  if c.length < 2 ^ 32 - 1 then
    let out := paddedOrTruncated c (shuffledIndices npShuffle c)
    if out.length = totalSizeNat c.length c.worldSize c.dropLast then some out else none
  else none

/-- Serialise an index array exactly as the `np.uint32` memmap write does:
each value becomes four little-endian bytes. -/
def encodeU32LE (l : List Nat) : List Nat :=
  l.flatMap (fun v => [v % 256, v / 256 % 256, v / 65536 % 256, v / 16777216 % 256])

/-- Deserialise a raw little-endian `uint32` byte stream, four bytes per
element (trailing bytes beyond a multiple of four are ignored). -/
def decodeU32LE : List Nat → List Nat
  | b0 :: b1 :: b2 :: b3 :: rest =>
    (b0 + 256 * b1 + 65536 * b2 + 16777216 * b3) :: decodeU32LE rest
  | _ => []

/-- `_build_and_save_global_indices`: only the local leader
(`local_rank == 0`) writes the index file; the written file is the raw
little-endian `uint32` serialisation of the generated array.  `none` means
no file was written by this process: generation itself failed, or the
generated array is empty — `np.memmap(..., mode="w+", shape=(0,))` raises
(`mmap` refuses zero-byte mappings) instead of writing a 0-byte file. -/
def buildAndSaveGlobalIndices (npShuffle : Nat → List Nat → List Nat) (c : Config) :
    Option (List Nat) :=
  if c.localRank = 0 then
    match buildGlobalIndices npShuffle c with
    | none => none
    | some arr => if arr.length = 0 then none else some (encodeU32LE arr)
  else none

/-- The `np.memmap(..., mode="r", dtype=np.uint32)` read performed by
`get_global_indices` when an index file is configured: numpy fails when the
file's byte length is not a multiple of the 4-byte item size, and also on an
empty file (`mmap` refuses zero-byte mappings); otherwise it returns the
decoded array, inferring its length from the file size alone. -/
def loadIndexFile (bytes : List Nat) : Option (List Nat) :=
  if bytes.length % 4 = 0 then
    if bytes.length = 0 then none else some (decodeU32LE bytes)
  else none

/-- Lines 561–563 of `__iter__`: drop the first `start_index` entries. -/
def startSlice (start : Nat) (idx : List Nat) : List Nat :=
  if start > 0 then idx.drop start else idx

/-- Line 566 of `__iter__`: `indices[self.rank : self.total_size : self.world_size]`. -/
def rankSlice (idx : List Nat) (rank totalSize ws : Nat) : List Nat :=
  pySlice idx rank totalSize ws

/-- Lines 575–582 of `__iter__`: the per-worker slice.  The first
`truncated = d * (len // d)` indices are reshaped into size-`d` batches,
batches are assigned round-robin (`[worker_id :: num_workers]` over rows),
and the leftover tail is striped as `indices[truncated + worker_id :: num_workers]`. -/
def workerSlice (d workerId numWorkers : Nat) (idx : List Nat) : List Nat :=
  let truncated := d * (idx.length / d)
  let leftOvers := pySliceFrom idx (truncated + workerId) numWorkers
  (pySliceFrom (chunks d (idx.take truncated)) workerId numWorkers).flatten ++ leftOvers

/-! ### Basic lemmas about `strideL` -/

theorem strideAux_eq_drop (w : Nat) (l : List α) :
    ∀ k, strideAux w k l = strideAux w 0 (l.drop k) := by
  induction l with
  | nil => intro k; cases k <;> rfl
  | cons a t ih =>
    intro k
    cases k with
    | zero => rfl
    | succ k => simpa [strideAux] using ih k

theorem strideL_nil (w : Nat) : strideL w ([] : List α) = [] := rfl

theorem strideL_cons (w : Nat) (a : α) (t : List α) :
    strideL w (a :: t) = a :: strideL w (t.drop (w - 1)) := by
  show strideAux w 0 (a :: t) = _
  rw [strideAux]
  rw [strideAux_eq_drop]
  rfl

theorem strideL_cons_drop (w : Nat) (hw : 0 < w) (a : α) (t : List α) :
    strideL w (a :: t) = a :: strideL w ((a :: t).drop w) := by
  rw [strideL_cons]
  congr 1
  obtain ⟨w, rfl⟩ := Nat.exists_eq_add_of_lt hw
  simp [List.drop_succ_cons]

theorem strideL_head? (w : Nat) (l : List α) : (strideL w l).head? = l.head? := by
  cases l with
  | nil => rfl
  | cons a t => rw [strideL_cons]; rfl

theorem strideL_tail (w : Nat) (hw : 0 < w) (l : List α) :
    (strideL w l).tail = strideL w (l.drop w) := by
  cases l with
  | nil => simp [strideL_nil]
  | cons a t => rw [strideL_cons_drop w hw]; rfl

/-- A chunk-step induction principle: to prove `P` of every list it is enough
to prove it of `[]` and to lift it from `l.drop w` to any nonempty `l`. -/
theorem chunkInduction (w : Nat) (P : List α → Prop) (h0 : P [])
    (hstep : ∀ a t, P (List.drop (w - 1) t) → P (a :: t)) : ∀ l, P l := by
  intro l
  generalize hn : l.length = n
  induction n using Nat.strong_induction_on generalizing l with
  | _ n ih =>
    cases l with
    | nil => exact h0
    | cons a t =>
      refine hstep a t (ih (t.drop (w - 1)).length ?_ _ rfl)
      subst hn
      simp only [List.length_drop, List.length_cons]
      omega

theorem mem_of_mem_strideL (w : Nat) {x : α} :
    ∀ l : List α, x ∈ strideL w l → x ∈ l := by
  refine chunkInduction (w := w) _ (by simp [strideL_nil]) ?_
  intro a t ih hx
  rw [strideL_cons] at hx
  rcases List.mem_cons.mp hx with h | h
  · simp [h]
  · exact List.mem_cons_of_mem a (List.drop_subset _ _ (ih h))

theorem strideL_getElem? (w : Nat) (hw : 0 < w) :
    ∀ (i : Nat) (l : List α), (strideL w l)[i]? = l[i * w]? := by
  intro i
  induction i with
  | zero =>
    intro l
    cases l with
    | nil => simp [strideL_nil]
    | cons a t => rw [strideL_cons]; simp
  | succ i ih =>
    intro l
    cases l with
    | nil => simp [strideL_nil]
    | cons a t =>
      rw [strideL_cons_drop w hw, List.getElem?_cons_succ, ih, List.getElem?_drop]
      congr 1
      ring

theorem strideL_length (w : Nat) (hw : 0 < w) :
    ∀ l : List α, (strideL w l).length = (l.length + (w - 1)) / w := by
  refine chunkInduction (w := w) _ ?_ ?_
  · rw [strideL_nil]
    simp only [List.length_nil, Nat.zero_add]
    exact (Nat.div_eq_of_lt (by omega)).symm
  intro a t ih
  rw [strideL_cons, List.length_cons, ih]
  simp only [List.length_drop, List.length_cons]
  have h2 : t.length + 1 + (w - 1) = t.length + w := by omega
  rw [h2, Nat.add_div_right _ hw]
  congr 1
  rcases le_or_lt (w - 1) t.length with h | h
  · rw [Nat.sub_add_cancel h]
  · rw [Nat.sub_eq_zero_of_le (Nat.le_of_lt h), Nat.zero_add,
      Nat.div_eq_of_lt (by omega), Nat.div_eq_of_lt (by omega)]

/-! ### Lemmas about `transposeFlat` -/

theorem length_le_maxLen {lss : List (List α)} {l : List α} (h : l ∈ lss) :
    l.length ≤ maxLen lss := by
  induction lss with
  | nil => cases h
  | cons x xs ih =>
    rcases List.mem_cons.mp h with rfl | h
    · exact Nat.le_max_left _ _
    · exact Nat.le_trans (ih h) (Nat.le_max_right _ _)

theorem maxLen_eq_zero {lss : List (List α)} (h : lss.all List.isEmpty) :
    maxLen lss = 0 := by
  induction lss with
  | nil => rfl
  | cons x xs ih =>
    simp only [List.all_cons, Bool.and_eq_true] at h
    have hx : x = [] := by
      cases x with
      | nil => rfl
      | cons a t => simp [List.isEmpty] at h
    subst hx
    simpa [maxLen] using ih h.2

theorem maxLen_le_iff {lss : List (List α)} {m : Nat} :
    maxLen lss ≤ m ↔ ∀ l ∈ lss, l.length ≤ m := by
  induction lss with
  | nil => simp [maxLen]
  | cons x xs ih =>
    show max x.length (maxLen xs) ≤ m ↔ _
    rw [Nat.max_le, ih]
    simp

theorem maxLen_map_tail {lss : List (List α)} :
    maxLen (lss.map List.tail) ≤ maxLen lss - 1 := by
  refine maxLen_le_iff.mpr ?_
  intro l hl
  obtain ⟨x, hx, rfl⟩ := List.mem_map.mp hl
  rw [List.length_tail]
  exact Nat.sub_le_sub_right (length_le_maxLen hx) 1

theorem transposeFlatF_congr :
    ∀ f₁ f₂ (lss : List (List α)), maxLen lss ≤ f₁ → maxLen lss ≤ f₂ →
      transposeFlatF f₁ lss = transposeFlatF f₂ lss := by
  intro f₁
  induction f₁ with
  | zero =>
    intro f₂ lss h1 _
    have hall : lss.all List.isEmpty := by
      refine List.all_eq_true.mpr ?_
      intro l hl
      have := Nat.le_trans (length_le_maxLen hl) h1
      simpa [List.isEmpty_iff_length_eq_zero] using Nat.le_zero.mp this
    cases f₂ with
    | zero => rfl
    | succ f₂ => simp [transposeFlatF, hall]
  | succ f₁ ih =>
    intro f₂ lss h1 h2
    by_cases hall : lss.all List.isEmpty
    · cases f₂ with
      | zero => simp [transposeFlatF, hall]
      | succ f₂ => simp [transposeFlatF, hall]
    · have hpos : 0 < maxLen lss := by
        rcases Nat.eq_zero_or_pos (maxLen lss) with h0 | h
        · exact absurd (by
            refine List.all_eq_true.mpr ?_
            intro l hl
            have := Nat.le_trans (length_le_maxLen hl) (Nat.le_of_eq h0)
            simpa [List.isEmpty_iff_length_eq_zero] using Nat.le_zero.mp this) hall
        · exact h
      cases f₂ with
      | zero => omega
      | succ f₂ =>
        simp only [transposeFlatF]
        rw [if_neg hall, if_neg hall]
        congr 1
        exact ih f₂ (lss.map List.tail)
          (Nat.le_trans maxLen_map_tail (by omega))
          (Nat.le_trans maxLen_map_tail (by omega))

theorem transposeFlat_eq (lss : List (List α)) :
    transposeFlat lss =
      if lss.all List.isEmpty then []
      else lss.filterMap List.head? ++ transposeFlat (lss.map List.tail) := by
  by_cases hall : lss.all List.isEmpty
  · rw [if_pos hall]
    show transposeFlatF (maxLen lss) lss = []
    rw [maxLen_eq_zero hall]
    rfl
  · rw [if_neg hall]
    have hpos : 0 < maxLen lss := by
      rcases Nat.eq_zero_or_pos (maxLen lss) with h0 | h
      · refine absurd (List.all_eq_true.mpr ?_) hall
        intro l hl
        have := Nat.le_trans (length_le_maxLen hl) (Nat.le_of_eq h0)
        simpa [List.isEmpty_iff_length_eq_zero] using Nat.le_zero.mp this
      · exact h
    show transposeFlatF (maxLen lss) lss = _
    obtain ⟨m, hm⟩ : ∃ m, maxLen lss = m + 1 := ⟨maxLen lss - 1, by omega⟩
    rw [hm]
    simp only [transposeFlatF]
    rw [if_neg hall]
    congr 1
    exact transposeFlatF_congr m (maxLen (lss.map List.tail)) (lss.map List.tail)
      (Nat.le_trans maxLen_map_tail (by omega)) (Nat.le_refl _)

theorem transposeFlat_allEmpty {lss : List (List α)} (h : lss.all List.isEmpty) :
    transposeFlat lss = [] := by
  rw [transposeFlat_eq, if_pos h]

theorem filterMap_getElem?_range (l : List α) :
    ∀ w, (List.range w).filterMap (fun j => l[j]?) = l.take w := by
  intro w
  induction w with
  | zero => simp
  | succ w ihw =>
    rw [List.range_succ, List.filterMap_append, ihw, List.take_succ]
    cases h : l[w]? <;> simp [h]

/-- Round-robin interleaving of the `w` residue-class strides of a list
reconstructs the list: the core of the partition-completeness properties. -/
theorem transposeFlat_strides (w : Nat) (hw : 0 < w) :
    ∀ l : List α,
      transposeFlat ((List.range w).map (fun j => strideL w (l.drop j))) = l := by
  refine chunkInduction (w := w) _ ?_ ?_
  · apply transposeFlat_allEmpty
    refine List.all_eq_true.mpr ?_
    intro x hx
    obtain ⟨j, _, rfl⟩ := List.mem_map.mp hx
    simp [strideL_nil]
  · intro a t ih
    have hdropw : (a :: t).drop w = t.drop (w - 1) := by
      obtain ⟨w, rfl⟩ := Nat.exists_eq_add_of_lt hw
      simp [List.drop_succ_cons]
    rw [transposeFlat_eq, if_neg ?notall]
    case notall =>
      intro hall
      have h0 : strideL w ((a :: t).drop 0) ∈
          (List.range w).map (fun j => strideL w ((a :: t).drop j)) :=
        List.mem_map.mpr ⟨0, List.mem_range.mpr hw, rfl⟩
      have := List.all_eq_true.mp hall _ h0
      simp [strideL_cons] at this
    have hheads : ((List.range w).map (fun j => strideL w ((a :: t).drop j))).filterMap
        List.head? = (a :: t).take w := by
      rw [List.filterMap_map]
      have hcongr : ∀ j ∈ List.range w,
          (List.head? ∘ fun j => strideL w ((a :: t).drop j)) j = (a :: t)[j]? := by
        intro j _
        show (strideL w ((a :: t).drop j)).head? = _
        rw [strideL_head?, List.head?_drop]
      rw [List.filterMap_congr hcongr]
      exact filterMap_getElem?_range (a :: t) w
    have htails : ((List.range w).map (fun j => strideL w ((a :: t).drop j))).map
        List.tail = (List.range w).map (fun j => strideL w (((a :: t).drop w).drop j)) := by
      rw [List.map_map]
      refine List.map_congr_left ?_
      intro j _
      show (strideL w ((a :: t).drop j)).tail = _
      rw [strideL_tail w hw, List.drop_drop, List.drop_drop, Nat.add_comm]
    rw [hheads, htails, hdropw, ih, ← hdropw, List.take_append_drop]

/-! ### Lemmas about `chunks` -/

theorem chunksF_congr (d : Nat) (hd : 0 < d) :
    ∀ f₁ f₂ (l : List α), l.length ≤ f₁ → l.length ≤ f₂ →
      chunksF d f₁ l = chunksF d f₂ l := by
  intro f₁
  induction f₁ with
  | zero =>
    intro f₂ l h1 _
    have : l = [] := List.eq_nil_of_length_eq_zero (Nat.le_zero.mp h1)
    subst this
    cases f₂ <;> rfl
  | succ f₁ ih =>
    intro f₂ l h1 h2
    cases l with
    | nil => cases f₂ <;> rfl
    | cons a t =>
      cases f₂ with
      | zero => simp at h2
      | succ f₂ =>
        simp only [chunksF]
        congr 1
        simp only [List.length_cons] at h1 h2
        refine ih f₂ ((a :: t).drop d) ?_ ?_ <;>
          simp only [List.length_drop, List.length_cons] <;> omega

theorem chunks_nil (d : Nat) : chunks d ([] : List α) = [] := rfl

theorem chunks_cons (d : Nat) (hd : 0 < d) (a : α) (t : List α) :
    chunks d (a :: t) = (a :: t).take d :: chunks d ((a :: t).drop d) := by
  show chunksF d (a :: t).length (a :: t) = _
  rw [List.length_cons]
  simp only [chunksF]
  congr 1
  refine chunksF_congr d hd _ _ _ ?_ (Nat.le_refl _)
  simp only [List.length_drop, List.length_cons]
  omega

theorem chunks_cons_of_ne_nil (d : Nat) (hd : 0 < d) {l : List α} (hl : l ≠ []) :
    chunks d l = l.take d :: chunks d (l.drop d) := by
  cases l with
  | nil => exact absurd rfl hl
  | cons a t => exact chunks_cons d hd a t

theorem flatten_chunks (d : Nat) (hd : 0 < d) :
    ∀ l : List α, (chunks d l).flatten = l := by
  refine chunkInduction (w := d) _ (by simp [chunks_nil]) ?_
  intro a t ih
  have hdrop : (a :: t).drop d = t.drop (d - 1) := by
    obtain ⟨d, rfl⟩ := Nat.exists_eq_add_of_lt hd
    simp [List.drop_succ_cons]
  rw [chunks_cons d hd, List.flatten_cons, hdrop, ih, ← hdrop, List.take_append_drop]

theorem chunks_length_mem (d : Nat) (hd : 0 < d) :
    ∀ l : List α, d ∣ l.length → ∀ c ∈ chunks d l, c.length = d := by
  refine chunkInduction (w := d) _ (by simp [chunks_nil]) ?_
  intro a t ih hdvd c hc
  have hdrop : (a :: t).drop d = t.drop (d - 1) := by
    obtain ⟨d, rfl⟩ := Nat.exists_eq_add_of_lt hd
    simp [List.drop_succ_cons]
  rw [chunks_cons d hd] at hc
  have hlen : d ≤ (a :: t).length := by
    rcases hdvd with ⟨k, hk⟩
    rcases Nat.eq_zero_or_pos k with rfl | hkpos
    · simp at hk
    · calc d = d * 1 := (Nat.mul_one d).symm
        _ ≤ d * k := Nat.mul_le_mul_left d hkpos
        _ = (a :: t).length := hk.symm
  rcases List.mem_cons.mp hc with rfl | hc
  · rw [List.length_take]
    omega
  · refine ih ?_ c (hdrop ▸ hc)
    rw [List.length_drop]
    rcases hdvd with ⟨k, hk⟩
    refine ⟨k - 1, ?_⟩
    have h1 : t.length + 1 = d * k := by simpa using hk
    have h2 : d * (k - 1) = d * k - d := by
      cases k with
      | zero => simp
      | succ k => simp [Nat.mul_succ]
    rw [h2, ← h1]
    omega

theorem chunks_flatten (d : Nat) (hd : 0 < d) :
    ∀ L : List (List α), (∀ c ∈ L, c.length = d) → chunks d L.flatten = L := by
  intro L
  induction L with
  | nil => simp [chunks_nil]
  | cons c L ih =>
    intro h
    have hc : c.length = d := h c (List.mem_cons_self c L)
    have hcne : c ≠ [] := by
      intro hnil
      rw [hnil] at hc
      simp at hc
      omega
    rw [List.flatten_cons]
    have hne : c ++ L.flatten ≠ [] := by
      intro hnil
      exact hcne (List.append_eq_nil.mp hnil).1
    rw [chunks_cons_of_ne_nil d hd hne]
    have htake : (c ++ L.flatten).take d = c := by
      rw [← hc, List.take_left]
    have hdrop : (c ++ L.flatten).drop d = L.flatten := by
      rw [← hc, List.drop_left]
    rw [htake, hdrop, ih (fun x hx => h x (List.mem_cons_of_mem c hx))]

/-! ### Worker-slice reconstruction -/

theorem workerSlice_eq_of_dvd (d w : Nat) (wid : Nat) (idx : List Nat)
    (hdvd : d ∣ idx.length) :
    workerSlice d wid w idx = (strideL w ((chunks d idx).drop wid)).flatten := by
  have htrunc : d * (idx.length / d) = idx.length := Nat.mul_div_cancel' hdvd
  show (pySliceFrom (chunks d (idx.take (d * (idx.length / d)))) wid w).flatten ++
      pySliceFrom idx (d * (idx.length / d) + wid) w = _
  rw [htrunc, List.take_length]
  have hleft : pySliceFrom idx (idx.length + wid) w = [] := by
    show strideL w (idx.drop (idx.length + wid)) = []
    rw [List.drop_eq_nil_of_le (by omega), strideL_nil]
  rw [hleft, List.append_nil]
  rfl

/-- When `d` divides the rank-local length, regrouping the `w` per-worker
slices into size-`d` chunks in round-robin assignment order reconstructs the
rank-local sequence. -/
theorem reconstructWorkers_workerSlice (d w : Nat) (hd : 0 < d) (hw : 0 < w)
    (idx : List Nat) (hdvd : d ∣ idx.length) :
    reconstructWorkers d ((List.range w).map (fun wid => workerSlice d wid w idx)) = idx := by
  show (transposeFlat (((List.range w).map (fun wid => workerSlice d wid w idx)).map
      (chunks d))).flatten = idx
  rw [List.map_map]
  have hmap : ((List.range w).map (chunks d ∘ fun wid => workerSlice d wid w idx)) =
      (List.range w).map (fun wid => strideL w ((chunks d idx).drop wid)) := by
    refine List.map_congr_left ?_
    intro wid _
    show chunks d (workerSlice d wid w idx) = _
    rw [workerSlice_eq_of_dvd d w wid idx hdvd]
    refine chunks_flatten d hd _ ?_
    intro c hc
    exact chunks_length_mem d hd idx hdvd c
      (List.drop_subset _ _ (mem_of_mem_strideL w _ hc))
  rw [hmap, transposeFlat_strides w hw (chunks d idx), flatten_chunks d hd]

/-! ### Lemmas about the padding loop -/

theorem padChunksF_congr (base : List Nat) (hbase : base ≠ []) :
    ∀ f₁ f₂ p, p ≤ f₁ → p ≤ f₂ → padChunksF base f₁ p = padChunksF base f₂ p := by
  intro f₁
  induction f₁ with
  | zero =>
    intro f₂ p h1 _
    have : p = 0 := Nat.le_zero.mp h1
    subst this
    cases f₂ with
    | zero => rfl
    | succ f₂ => simp [padChunksF]
  | succ f₁ ih =>
    intro f₂ p h1 h2
    rcases Nat.eq_zero_or_pos p with rfl | hp
    · cases f₂ with
      | zero => rfl
      | succ f₂ => simp [padChunksF]
    · have hplen : 0 < base.length := List.length_pos.mpr hbase
      cases f₂ with
      | zero => omega
      | succ f₂ =>
        simp only [padChunksF]
        rw [if_neg (by omega), if_neg (by omega)]
        congr 1
        have hmin : 0 < min p base.length := by
          rw [Nat.lt_min]
          exact ⟨hp, hplen⟩
        exact ih f₂ (p - min p base.length) (by omega) (by omega)

theorem padChunks_eq (base : List Nat) (hbase : base ≠ []) (p : Nat) :
    padChunks base p =
      if p = 0 then []
      else base.take (min p base.length) :: padChunks base (p - min p base.length) := by
  rcases Nat.eq_zero_or_pos p with rfl | hp
  · rfl
  · rw [if_neg (by omega)]
    show padChunksF base p p = _
    obtain ⟨q, rfl⟩ : ∃ q, p = q + 1 := ⟨p - 1, by omega⟩
    simp only [padChunksF]
    rw [if_neg (by omega)]
    congr 1
    have hplen : 0 < base.length := List.length_pos.mpr hbase
    have hmin : 0 < min (q + 1) base.length := by
      rw [Nat.lt_min]
      exact ⟨by omega, hplen⟩
    exact padChunksF_congr base hbase q _ _ (by omega) (Nat.le_refl _)

theorem length_flatten_padChunks (base : List Nat) (hbase : base ≠ []) :
    ∀ p, ((padChunks base p).flatten).length = p := by
  intro p
  induction p using Nat.strong_induction_on with
  | _ p ih =>
    rcases Nat.eq_zero_or_pos p with rfl | hp
    · rfl
    · rw [padChunks_eq base hbase p, if_neg (by omega), List.flatten_cons,
        List.length_append, List.length_take]
      have hplen : 0 < base.length := List.length_pos.mpr hbase
      have hmin : 0 < min p base.length := by
        rw [Nat.lt_min]
        exact ⟨hp, hplen⟩
      rw [ih (p - min p base.length) (by omega)]
      rw [Nat.min_assoc]
      omega

theorem mem_flatten_padChunksF (base : List Nat) :
    ∀ f p x, x ∈ (padChunksF base f p).flatten → x ∈ base := by
  intro f
  induction f with
  | zero => intro p x hx; simp [padChunksF] at hx
  | succ f ih =>
    intro p x hx
    simp only [padChunksF] at hx
    by_cases hp : p = 0
    · rw [if_pos hp] at hx
      simp at hx
    · rw [if_neg hp, List.flatten_cons, List.mem_append] at hx
      rcases hx with hx | hx
      · exact List.take_subset _ _ hx
      · exact ih _ x hx

theorem mem_flatten_padChunks (base : List Nat) {p : Nat} {x : Nat}
    (hx : x ∈ (padChunks base p).flatten) : x ∈ base :=
  mem_flatten_padChunksF base p p x hx

/-! ### Arithmetic facts about `ceilDivInt` and `totalSizeInt` -/

theorem le_ceilDivInt_mul {a b : Int} (hb : 0 < b) : a ≤ ceilDivInt a b * b := by
  have h1 : b * ((-a) / b) + (-a) % b = -a := Int.ediv_add_emod (-a) b
  have h2 : 0 ≤ (-a) % b := Int.emod_nonneg (-a) (by omega)
  show a ≤ -((-a) / b) * b
  nlinarith [h1, h2]

theorem ceilDivInt_mul_lt {a b : Int} (hb : 0 < b) : ceilDivInt a b * b < a + b := by
  have h1 : b * ((-a) / b) + (-a) % b = -a := Int.ediv_add_emod (-a) b
  have h3 : (-a) % b < b := Int.emod_lt_of_pos (-a) hb
  show -((-a) / b) * b < a + b
  nlinarith [h1, h3]

theorem ceilDivInt_nonneg {a b : Int} (hb : 0 < b) (ha : -b < a) :
    0 ≤ ceilDivInt a b := by
  have h1 : b * ((-a) / b) + (-a) % b = -a := Int.ediv_add_emod (-a) b
  have h3 : (-a) % b < b := Int.emod_lt_of_pos (-a) hb
  show 0 ≤ -((-a) / b)
  have h2 : 0 ≤ (-a) % b := Int.emod_nonneg (-a) (by omega)
  have hq : (-a) / b ≤ 0 := by
    by_contra hq
    push_neg at hq
    have hone : 1 ≤ (-a) / b := hq
    have hble : b * 1 ≤ b * ((-a) / b) := mul_le_mul_of_nonneg_left hone (le_of_lt hb)
    linarith [h1, h2, hble, ha]
  omega

theorem ceilDivInt_nonpos {a b : Int} (hb : 0 < b) (ha : a ≤ 0) :
    ceilDivInt a b ≤ 0 := by
  show -((-a) / b) ≤ 0
  have : 0 ≤ (-a) / b := Int.ediv_nonneg (by omega) (by omega)
  omega

theorem ceilDivInt_mul_of_dvd {a b : Int} (hb : 0 < b) (hdvd : b ∣ a) :
    ceilDivInt a b * b = a := by
  have h1 : a ≤ ceilDivInt a b * b := le_ceilDivInt_mul hb
  have h2 : ceilDivInt a b * b < a + b := ceilDivInt_mul_lt hb
  have h3 : b ∣ ceilDivInt a b * b - a :=
    dvd_sub (dvd_mul_left b (ceilDivInt a b)) hdvd
  rcases h3 with ⟨k, hk⟩
  have hk0 : 0 ≤ k := by
    by_contra hneg
    push_neg at hneg
    have : k ≤ -1 := by omega
    nlinarith [h1, hk]
  have hk1 : k < 1 := by
    by_contra hge
    push_neg at hge
    nlinarith [h2, hk]
  have : k = 0 := by omega
  rw [this] at hk
  omega

theorem ceilDivInt_eq_rat_ceil {a b : Int} (hb : 0 < b) :
    ceilDivInt a b = ⌈(a : ℚ) / (b : ℚ)⌉ := by
  have hbq : (0 : ℚ) < (b : ℚ) := by exact_mod_cast hb
  symm
  rw [Int.ceil_eq_iff]
  constructor
  · rw [lt_div_iff₀ hbq]
    have h2 : ceilDivInt a b * b < a + b := ceilDivInt_mul_lt hb
    have : ((ceilDivInt a b : ℚ) - 1) * (b : ℚ) = ((ceilDivInt a b * b - b : Int) : ℚ) := by
      push_cast
      ring
    rw [this]
    exact_mod_cast (by omega : ceilDivInt a b * b - b < a)
  · rw [div_le_iff₀ hbq]
    have h1 : a ≤ ceilDivInt a b * b := le_ceilDivInt_mul hb
    exact_mod_cast h1

theorem totalSizeInt_nonneg (length ws : Nat) (dropLast : Bool) (hws : 0 < ws) :
    0 ≤ totalSizeInt length ws dropLast := by
  have hwsI : (0 : Int) < (ws : Int) := by exact_mod_cast hws
  unfold totalSizeInt numSamplesInt
  split
  · rename_i h
    rcases Nat.eq_zero_or_pos length with rfl | hlen
    · simp at h
    · have : -((ws : Int)) < (length : Int) - (ws : Int) := by
        have : (0 : Int) < (length : Int) := by exact_mod_cast hlen
        omega
      have := ceilDivInt_nonneg hwsI this
      positivity
  · have : -((ws : Int)) < (length : Int) := by
      have : (0 : Int) ≤ (length : Int) := Int.natCast_nonneg length
      omega
    have := ceilDivInt_nonneg hwsI this
    positivity

theorem totalSizeInt_le_of_dropLast (length ws : Nat) (hws : 0 < ws) :
    totalSizeInt length ws true ≤ (length : Int) := by
  have hwsI : (0 : Int) < (ws : Int) := by exact_mod_cast hws
  unfold totalSizeInt numSamplesInt
  split
  · have h2 := ceilDivInt_mul_lt (a := (length : Int) - (ws : Int)) hwsI
    omega
  · rename_i h
    have hmod : length % ws = 0 := by
      rcases Decidable.em (length % ws = 0) with h0 | h0
      · exact h0
      · exact absurd ⟨rfl, h0⟩ h
    have hdvd : (ws : Int) ∣ (length : Int) := by
      exact_mod_cast Nat.dvd_of_mod_eq_zero hmod
    rw [ceilDivInt_mul_of_dvd hwsI hdvd]

theorem le_totalSizeInt_of_not_dropLast (length ws : Nat) (hws : 0 < ws) :
    (length : Int) ≤ totalSizeInt length ws false := by
  have hwsI : (0 : Int) < (ws : Int) := by exact_mod_cast hws
  unfold totalSizeInt numSamplesInt
  rw [if_neg (by simp)]
  exact le_ceilDivInt_mul hwsI

theorem totalSizeInt_zero (ws : Nat) (dropLast : Bool) :
    totalSizeInt 0 ws dropLast = 0 := by
  unfold totalSizeInt numSamplesInt
  rw [if_neg (by simp)]
  show ceilDivInt 0 ws * ws = 0
  unfold ceilDivInt
  simp

theorem totalSizeNat_le_of_dropLast (length ws : Nat) (hws : 0 < ws) :
    totalSizeNat length ws true ≤ length := by
  have h1 := totalSizeInt_le_of_dropLast length ws hws
  have h2 := totalSizeInt_nonneg length ws true hws
  unfold totalSizeNat
  omega

theorem le_totalSizeNat_of_not_dropLast (length ws : Nat) (hws : 0 < ws) :
    length ≤ totalSizeNat length ws false := by
  have h1 := le_totalSizeInt_of_not_dropLast length ws hws
  unfold totalSizeNat
  omega

/-! ### Structural lemmas about `buildGlobalIndices` -/

theorem shuffledIndices_perm (npShuffle : Nat → List Nat → List Nat)
    (hperm : ∀ s l, (npShuffle s l).Perm l) (c : Config) :
    (shuffledIndices npShuffle c).Perm (List.range c.length) := by
  unfold shuffledIndices
  split
  · exact hperm _ _
  · exact List.Perm.refl _

theorem paddedOrTruncated_length (npShuffle : Nat → List Nat → List Nat)
    (hperm : ∀ s l, (npShuffle s l).Perm l) (c : Config) (hws : 0 < c.worldSize) :
    (paddedOrTruncated c (shuffledIndices npShuffle c)).length =
      totalSizeNat c.length c.worldSize c.dropLast := by
  have hlen : (shuffledIndices npShuffle c).length = c.length :=
    (shuffledIndices_perm npShuffle hperm c).length_eq.trans (List.length_range c.length)
  unfold paddedOrTruncated
  cases hdl : c.dropLast with
  | true =>
    simp only [hdl, Bool.not_true, Bool.false_eq_true, if_false]
    rw [List.length_take, hlen]
    have := totalSizeNat_le_of_dropLast c.length c.worldSize hws
    omega
  | false =>
    simp only [hdl, Bool.not_false, if_true]
    rw [List.length_append, hlen]
    rcases Nat.eq_zero_or_pos c.length with h0 | hpos
    · have hT : totalSizeNat c.length c.worldSize false = 0 := by
        unfold totalSizeNat
        rw [h0, totalSizeInt_zero]
        rfl
      have hnil : shuffledIndices npShuffle c = [] :=
        List.eq_nil_of_length_eq_zero (hlen.trans h0)
      rw [hT, h0, hnil]
      rfl
    · have hne : shuffledIndices npShuffle c ≠ [] := by
        intro h
        rw [h] at hlen
        simp at hlen
        omega
      rw [length_flatten_padChunks _ hne]
      have := le_totalSizeNat_of_not_dropLast c.length c.worldSize hws
      omega

theorem buildGlobalIndices_eq_some (npShuffle : Nat → List Nat → List Nat)
    (hperm : ∀ s l, (npShuffle s l).Perm l) (c : Config) (hws : 0 < c.worldSize)
    (hlen : c.length < 2 ^ 32 - 1) :
    buildGlobalIndices npShuffle c = some (paddedOrTruncated c (shuffledIndices npShuffle c)) := by
  unfold buildGlobalIndices
  rw [if_pos hlen]
  simp only
  rw [if_pos (paddedOrTruncated_length npShuffle hperm c hws)]

theorem mem_paddedOrTruncated_lt (npShuffle : Nat → List Nat → List Nat)
    (hperm : ∀ s l, (npShuffle s l).Perm l) (c : Config) {v : Nat}
    (hv : v ∈ paddedOrTruncated c (shuffledIndices npShuffle c)) : v < c.length := by
  have hmem : ∀ x, x ∈ shuffledIndices npShuffle c → x < c.length := by
    intro x hx
    exact List.mem_range.mp ((shuffledIndices_perm npShuffle hperm c).mem_iff.mp hx)
  unfold paddedOrTruncated at hv
  rcases Decidable.em (c.dropLast = true) with hdl | hdl
  · rw [hdl] at hv
    simp only [Bool.not_true, Bool.false_eq_true, if_false] at hv
    exact hmem v (List.take_subset _ _ hv)
  · have hdl' : c.dropLast = false := by
      cases h : c.dropLast
      · rfl
      · exact absurd h hdl
    rw [hdl'] at hv
    simp only [Bool.not_false, if_true] at hv
    rcases List.mem_append.mp hv with hv | hv
    · exact hmem v hv
    · exact hmem v (mem_flatten_padChunks _ hv)

theorem mem_paddedOrTruncated_of_lt (npShuffle : Nat → List Nat → List Nat)
    (hperm : ∀ s l, (npShuffle s l).Perm l) (c : Config) (hdl : c.dropLast = false) {i : Nat}
    (hi : i < c.length) : i ∈ paddedOrTruncated c (shuffledIndices npShuffle c) := by
  unfold paddedOrTruncated
  rw [hdl]
  simp only [Bool.not_false, if_true]
  refine List.mem_append_left _ ?_
  exact (shuffledIndices_perm npShuffle hperm c).mem_iff.mpr (List.mem_range.mpr hi)

theorem paddedOrTruncated_nodup (npShuffle : Nat → List Nat → List Nat)
    (hperm : ∀ s l, (npShuffle s l).Perm l) (c : Config) (hdl : c.dropLast = true) :
    (paddedOrTruncated c (shuffledIndices npShuffle c)).Nodup := by
  have hnd : (shuffledIndices npShuffle c).Nodup :=
    ((shuffledIndices_perm npShuffle hperm c).nodup_iff).mpr (List.nodup_range c.length)
  unfold paddedOrTruncated
  rw [hdl]
  simp only [Bool.not_true, Bool.false_eq_true, if_false]
  exact (List.take_sublist _ _).nodup hnd

/-! ### Lemmas about the `uint32` byte encoding -/

theorem encodeU32LE_cons (v : Nat) (t : List Nat) :
    encodeU32LE (v :: t) =
      [v % 256, v / 256 % 256, v / 65536 % 256, v / 16777216 % 256] ++ encodeU32LE t := by
  unfold encodeU32LE
  rw [List.flatMap_cons]

theorem length_encodeU32LE (l : List Nat) : (encodeU32LE l).length = 4 * l.length := by
  induction l with
  | nil => rfl
  | cons v t ih =>
    rw [encodeU32LE_cons, List.length_append, ih, List.length_cons]
    simp only [List.length_cons, List.length_nil]
    omega

theorem decodeU32LE_encodeU32LE (l : List Nat) (h : ∀ v ∈ l, v < 2 ^ 32) :
    decodeU32LE (encodeU32LE l) = l := by
  induction l with
  | nil => rfl
  | cons v t ih =>
    have hv : v < 2 ^ 32 := h v (List.mem_cons_self v t)
    rw [encodeU32LE_cons]
    simp only [List.cons_append, List.nil_append]
    show (v % 256 + 256 * (v / 256 % 256) + 65536 * (v / 65536 % 256) +
        16777216 * (v / 16777216 % 256)) :: decodeU32LE (encodeU32LE t) = v :: t
    rw [ih (fun x hx => h x (List.mem_cons_of_mem v hx))]
    congr 1
    omega

theorem length_decodeU32LE (bytes : List Nat) :
    (decodeU32LE bytes).length = bytes.length / 4 := by
  generalize hn : bytes.length = n
  induction n using Nat.strong_induction_on generalizing bytes with
  | _ n ih =>
    rcases bytes with _ | ⟨b0, _ | ⟨b1, _ | ⟨b2, _ | ⟨b3, rest⟩⟩⟩⟩
    · subst hn; show ([] : List Nat).length = _; simp
    · subst hn; show ([] : List Nat).length = _; simp
    · subst hn; show ([] : List Nat).length = _; simp
    · subst hn; show ([] : List Nat).length = _; simp
    · show (decodeU32LE (b0 :: b1 :: b2 :: b3 :: rest)).length = _
      simp only [List.length_cons] at hn
      simp only [decodeU32LE, List.length_cons]
      rw [ih rest.length (by omega) rest rfl]
      omega

/-! ### The rank slice -/

theorem rankSlice_eq_strideL {idx : List Nat} {T : Nat} (h : idx.length ≤ T)
    (r w : Nat) : rankSlice idx r T w = strideL w (idx.drop r) := by
  unfold rankSlice pySlice
  rw [List.take_of_length_le h]

theorem rankSlice_length (w : Nat) (hw : 0 < w) (r : Nat) (hr : r < w)
    (idx : List Nat) (q : Nat) (hq : idx.length = w * q) :
    (strideL w (idx.drop r)).length = q := by
  rw [strideL_length w hw, List.length_drop, hq]
  rcases Nat.eq_zero_or_pos q with rfl | hqpos
  · rw [Nat.mul_zero]
    simp only [Nat.zero_sub, Nat.zero_add]
    exact Nat.div_eq_of_lt (by omega)
  · have hwq : w ≤ w * q := Nat.le_mul_of_pos_right w hqpos
    have hsplit : w * q - r + (w - 1) = (w - 1 - r) + w * q := by omega
    rw [hsplit, Nat.add_mul_div_left _ _ hw, Nat.div_eq_of_lt (by omega), Nat.zero_add]

/-! ### Remaining helper lemmas for the iteration pipeline -/

theorem startSlice_eq_drop (start : Nat) (idx : List Nat) :
    startSlice start idx = idx.drop start := by
  unfold startSlice
  split
  · rfl
  · rename_i h
    have h0 : start = 0 := by omega
    rw [h0, List.drop_zero]

/-! ### Claim theorems -/

/-- C1, counterexample: the claim asserts that for every rank-local slice the
round-robin regrouping of the per-worker outputs into size-`d` chunks
reconstructs the rank-local order.  This fails as soon as the leftover tail
(`len mod d` indices, striped across workers) holds two indices that land on
the same worker: with a rank-local slice `[0..10]`, `device_batch_size = 4`
and `num_workers = 2`, worker 0 yields `[0,1,2,3,8,10]` and worker 1 yields
`[4,5,6,7,9]`, and the regrouping produces `[0,...,8,10,9]`, not `[0..10]`. -/
theorem c1_counterexample :
    reconstructWorkers 4
      ((List.range 2).map (fun wid => workerSlice 4 wid 2 (List.range 11))) ≠
      List.range 11 := by
  decide

/-- C1, amended: the per-worker slicing computes
`truncated = d * floor(len / d)`, reshapes the first `truncated` indices into
size-`d` batches assigned round-robin to workers, and stripes the leftover
tail; when `device_batch_size` divides the rank-local length (so the leftover
tail is empty), regrouping every worker's yielded indices into size-`d`
chunks in round-robin assignment order reconstructs the rank-local order
exactly. -/
theorem c1_worker_batch_alignment (d w : Nat) (idx : List Nat) (hd : 0 < d)
    (hw : 0 < w) (hdvd : d ∣ idx.length) :
    reconstructWorkers d ((List.range w).map (fun wid => workerSlice d wid w idx)) = idx :=
  reconstructWorkers_workerSlice d w hd hw idx hdvd

/-- Witness for C1 at the spec's own scenario: a rank-local slice of length
80 with `device_batch_size = 8` and `num_workers = 3`. -/
theorem c1_worker_batch_alignment_witness :
    0 < 8 ∧ 0 < 3 ∧ (8 : Nat) ∣ (List.range 80).length ∧
      reconstructWorkers 8
        ((List.range 3).map (fun wid => workerSlice 8 wid 3 (List.range 80))) =
        List.range 80 :=
  ⟨by decide, by decide, by decide,
    c1_worker_batch_alignment 8 3 (List.range 80) (by decide) (by decide) (by decide)⟩

/-- C4: for a global index array whose length is a multiple of `world_size`
(and `start_index = 0`), the per-rank strided slices
`indices[rank : total_size : world_size]` have length exactly
`total_size / world_size` each, element `i` of rank `r`'s slice is the entry
at global position `r + i * world_size` (so the position sets of distinct
ranks are pairwise disjoint), and round-robin re-interleaving of the rank
slices reconstructs the global array exactly. -/
theorem c4_rank_partition (idx : List Nat) (w : Nat) (hw : 0 < w)
    (hdvd : w ∣ idx.length) :
    (∀ r, r < w → (rankSlice idx r idx.length w).length = idx.length / w) ∧
    (∀ r i, (rankSlice idx r idx.length w)[i]? = idx[r + i * w]?) ∧
    (∀ r1 i1 r2 i2, r1 < w → r2 < w → r1 ≠ r2 → r1 + i1 * w ≠ r2 + i2 * w) ∧
    transposeFlat ((List.range w).map (fun r => rankSlice idx r idx.length w)) = idx := by
  obtain ⟨q, hq⟩ := hdvd
  refine ⟨?_, ?_, ?_, ?_⟩
  · intro r hr
    rw [rankSlice_eq_strideL (Nat.le_refl _) r w,
      rankSlice_length w hw r hr idx q hq, hq, Nat.mul_div_cancel_left q hw]
  · intro r i
    rw [rankSlice_eq_strideL (Nat.le_refl _) r w, strideL_getElem? w hw,
      List.getElem?_drop]
  · intro r1 i1 r2 i2 hr1 hr2 hne heq
    have h1 : (r1 + i1 * w) % w = r1 := by
      rw [Nat.add_mul_mod_self_right, Nat.mod_eq_of_lt hr1]
    have h2 : (r2 + i2 * w) % w = r2 := by
      rw [Nat.add_mul_mod_self_right, Nat.mod_eq_of_lt hr2]
    rw [← h1, ← h2, heq] at hne
    exact hne rfl
  · have hcongr : ∀ r ∈ List.range w,
        rankSlice idx r idx.length w = strideL w (idx.drop r) := by
      intro r _
      exact rankSlice_eq_strideL (Nat.le_refl _) r w
    rw [List.map_congr_left hcongr, transposeFlat_strides w hw]

/-- Witness for C4 at `idx = [0..5]`, `world_size = 2`. -/
theorem c4_rank_partition_witness :
    0 < 2 ∧ (2 : Nat) ∣ (List.range 6).length ∧
      ((∀ r, r < 2 → (rankSlice (List.range 6) r (List.range 6).length 2).length =
          (List.range 6).length / 2) ∧
        (∀ r i, (rankSlice (List.range 6) r (List.range 6).length 2)[i]? =
          (List.range 6)[r + i * 2]?) ∧
        (∀ r1 i1 r2 i2, r1 < 2 → r2 < 2 → r1 ≠ r2 → r1 + i1 * 2 ≠ r2 + i2 * 2) ∧
        transposeFlat ((List.range 2).map
          (fun r => rankSlice (List.range 6) r (List.range 6).length 2)) = List.range 6) :=
  ⟨by decide, by decide, c4_rank_partition (List.range 6) 2 (by decide) (by decide)⟩

/-- C7: with a global index sequence of length `n * global_batch_size`
(`global_batch_size = world_size * device_batch_size`) and a resume offset
`start_index = k * global_batch_size`, iteration drops exactly the first
`start_index` entries before rank/worker slicing (`start_index = 0` is a
no-op), and reassembling the yielded indices over all ranks and workers
reproduces exactly the tail `n - k` batches in original order — nothing from
the first `k` batches is duplicated. -/
theorem c7_resumption (idx : List Nat) (n k w d nw : Nat) (hw : 0 < w) (hd : 0 < d)
    (hnw : 0 < nw) (hlen : idx.length = n * (w * d)) (_hk : k ≤ n) :
    startSlice 0 idx = idx ∧
    startSlice (k * (w * d)) idx = idx.drop (k * (w * d)) ∧
    transposeFlat ((List.range w).map (fun r =>
        reconstructWorkers d ((List.range nw).map (fun wid =>
          workerSlice d wid nw
            (rankSlice (startSlice (k * (w * d)) idx) r (n * (w * d)) w))))) =
      idx.drop (k * (w * d)) := by
  have hlen1 : (idx.drop (k * (w * d))).length = w * ((n - k) * d) := by
    rw [List.length_drop, hlen]
    have : (n - k) * (w * d) = n * (w * d) - k * (w * d) := Nat.sub_mul n k (w * d)
    rw [← Nat.sub_mul]
    ring
  refine ⟨by rw [startSlice_eq_drop, List.drop_zero], startSlice_eq_drop _ idx, ?_⟩
  have hcongr : ∀ r ∈ List.range w,
      reconstructWorkers d ((List.range nw).map (fun wid =>
        workerSlice d wid nw
          (rankSlice (startSlice (k * (w * d)) idx) r (n * (w * d)) w))) =
      strideL w ((idx.drop (k * (w * d))).drop r) := by
    intro r hr
    have hr' : r < w := List.mem_range.mp hr
    have hle : (idx.drop (k * (w * d))).length ≤ n * (w * d) := by
      rw [List.length_drop, hlen]
      omega
    rw [startSlice_eq_drop, rankSlice_eq_strideL hle r w]
    refine reconstructWorkers_workerSlice d nw hd hnw _ ?_
    rw [rankSlice_length w hw r hr' _ ((n - k) * d) hlen1]
    exact dvd_mul_left d (n - k)
  rw [List.map_congr_left hcongr, transposeFlat_strides w hw]

/-- Witness for C7 at `idx = [0..3]`, `n = 2`, `k = 1`, `world_size = 2`,
`device_batch_size = 1`, one loader worker. -/
theorem c7_resumption_witness :
    0 < 2 ∧ 0 < 1 ∧ (List.range 4).length = 2 * (2 * 1) ∧ 1 ≤ 2 ∧
      (startSlice 0 (List.range 4) = List.range 4 ∧
        startSlice (1 * (2 * 1)) (List.range 4) = (List.range 4).drop (1 * (2 * 1)) ∧
        transposeFlat ((List.range 2).map (fun r =>
            reconstructWorkers 1 ((List.range 1).map (fun wid =>
              workerSlice 1 wid 1
                (rankSlice (startSlice (1 * (2 * 1)) (List.range 4)) r (2 * (2 * 1)) 2))))) =
          (List.range 4).drop (1 * (2 * 1))) :=
  ⟨by decide, by decide, by decide, by decide,
    c7_resumption (List.range 4) 2 1 2 1 1 (by decide) (by decide) (by decide)
      (by decide) (by decide)⟩

/-- C6: global index generation is a pure function of
`(length, seed, epoch, shuffle, drop_last, world_size)` (with the PRNG keyed
by `seed + epoch`): two configurations agreeing on those fields — but
differing arbitrarily in rank, local rank, resume offset or batch size — and
sharing the PRNG produce identical arrays.  No wall-clock or process identity
enters the embedding, so two invocations at the same arguments are trivially
bit-identical. -/
theorem c6_determinism (npShuffle : Nat → List Nat → List Nat) (ca cb : Config)
    (hlen : ca.length = cb.length) (hseed : ca.seed = cb.seed)
    (hepoch : ca.epoch = cb.epoch) (hshuffle : ca.shuffle = cb.shuffle)
    (hdrop : ca.dropLast = cb.dropLast) (hws : ca.worldSize = cb.worldSize) :
    buildGlobalIndices npShuffle ca = buildGlobalIndices npShuffle cb := by
  unfold buildGlobalIndices paddedOrTruncated shuffledIndices totalSizeNat totalSizeInt
    numSamplesInt
  rw [hlen, hseed, hepoch, hshuffle, hdrop, hws]

/-- Witness for C6: two configurations differing in rank, local rank, resume
offset and global batch size produce the same array. -/
theorem c6_determinism_witness :
    buildGlobalIndices (fun _ l => l.reverse) ⟨10, 4, 7, 3, 0, true, false, 2, 0, 0⟩ =
      buildGlobalIndices (fun _ l => l.reverse) ⟨10, 8, 7, 3, 99, true, false, 2, 1, 1⟩ :=
  c6_determinism (fun _ l => l.reverse) _ _ rfl rfl rfl rfl rfl rfl

/-- C2, counterexample: the claim says that `length < world_size` with
`drop_last = true` fails with a `ConfigError` at setup.  The code has no such
check: with `length = 3`, `world_size = 4`, `drop_last = true` it computes
`total_size = 0` and index generation succeeds, returning an empty array. -/
theorem c2_counterexample :
    totalSizeInt 3 4 true = 0 ∧
      buildGlobalIndices (fun _ l => l) ⟨3, 4, 0, 0, 0, false, true, 4, 0, 0⟩ = some [] := by
  constructor
  · decide
  · decide

/-- C2, amended: for every `length < world_size` with `drop_last = true`, no
error is raised at setup: `total_size` is computed as `0`, and (as long as
the `uint32` length assertion passes) index generation succeeds with the
empty array — every rank silently receives zero samples. -/
theorem c2_short_dataset (npShuffle : Nat → List Nat → List Nat) (c : Config)
    (hws : 0 < c.worldSize) (hlt : c.length < c.worldSize) (hdl : c.dropLast = true) :
    totalSizeInt c.length c.worldSize c.dropLast = 0 ∧
      (c.length < 2 ^ 32 - 1 → buildGlobalIndices npShuffle c = some []) := by
  have hwsI : (0 : Int) < (c.worldSize : Int) := by exact_mod_cast hws
  have hT : totalSizeInt c.length c.worldSize true = 0 := by
    rcases Nat.eq_zero_or_pos c.length with h0 | hpos
    · rw [h0, totalSizeInt_zero]
    · have hmod : c.length % c.worldSize ≠ 0 := by
        rw [Nat.mod_eq_of_lt hlt]
        omega
      unfold totalSizeInt numSamplesInt
      rw [if_pos ⟨rfl, hmod⟩]
      have hub : ceilDivInt ((c.length : Int) - (c.worldSize : Int)) (c.worldSize : Int) ≤ 0 :=
        ceilDivInt_nonpos hwsI (by omega)
      have hlb : 0 ≤ ceilDivInt ((c.length : Int) - (c.worldSize : Int)) (c.worldSize : Int) :=
        ceilDivInt_nonneg hwsI (by omega)
      have hzero : ceilDivInt ((c.length : Int) - (c.worldSize : Int)) (c.worldSize : Int) = 0 :=
        le_antisymm hub hlb
      rw [hzero, zero_mul]
  have hTnat : totalSizeNat c.length c.worldSize true = 0 := by
    unfold totalSizeNat
    rw [hT]
    rfl
  refine ⟨by rw [hdl]; exact hT, ?_⟩
  intro h32
  have hout : paddedOrTruncated c (shuffledIndices npShuffle c) = [] := by
    unfold paddedOrTruncated
    rw [hdl]
    simp only [Bool.not_true, Bool.false_eq_true, if_false]
    rw [hTnat, List.take_zero]
  unfold buildGlobalIndices
  rw [if_pos h32]
  simp only
  rw [hout, hdl, hTnat]
  simp

/-- Witness for C2 (amended) at `length = 3`, `world_size = 4`. -/
theorem c2_short_dataset_witness :
    0 < 4 ∧ 3 < 4 ∧
      (totalSizeInt 3 4 true = 0 ∧
        (3 < 2 ^ 32 - 1 →
          buildGlobalIndices (fun _ l => l) ⟨3, 8, 0, 0, 0, false, true, 4, 0, 0⟩ = some [])) :=
  ⟨by decide, by decide,
    c2_short_dataset (fun _ l => l) ⟨3, 8, 0, 0, 0, false, true, 4, 0, 0⟩
      (by decide) (by decide) rfl⟩

/-- C3: under `drop_last = true` the code computes
`num_samples = ceil((length - world_size)/world_size)` when
`length % world_size ≠ 0` and `ceil(length/world_size)` otherwise, with
`total_size = num_samples * world_size` (stated against the mathematical
ceiling over `ℚ`); concretely `length = 17, world_size = 4, drop_last = true,
shuffle = false` generates exactly `[0..15]` with `total_size = 16`; and the
generated array always has length exactly `total_size`. -/
theorem c3_drop_last_total_size :
    (∀ length ws : Nat, 0 < ws →
      totalSizeInt length ws true =
        (if length % ws ≠ 0 then ⌈(((length : Int) : ℚ) - ((ws : Int) : ℚ)) / ((ws : Int) : ℚ)⌉
         else ⌈((length : Int) : ℚ) / ((ws : Int) : ℚ)⌉) * (ws : Int)) ∧
    (∀ npShuffle : Nat → List Nat → List Nat,
      buildGlobalIndices npShuffle ⟨17, 4, 0, 0, 0, false, true, 4, 0, 0⟩ =
        some (List.range 16) ∧ totalSizeInt 17 4 true = 16) ∧
    (∀ (npShuffle : Nat → List Nat → List Nat) (c : Config),
      (∀ s l, (npShuffle s l).Perm l) → 0 < c.worldSize → c.dropLast = true →
      c.length < 2 ^ 32 - 1 →
      ∃ arr, buildGlobalIndices npShuffle c = some arr ∧
        (arr.length : Int) = totalSizeInt c.length c.worldSize true) := by
  refine ⟨?_, ?_, ?_⟩
  · intro len ws hws
    have hwsI : (0 : Int) < (ws : Int) := by exact_mod_cast hws
    unfold totalSizeInt numSamplesInt
    by_cases h0 : len % ws = 0
    · rw [if_neg (by simp [h0]), if_neg (by simp [h0]), ceilDivInt_eq_rat_ceil hwsI]
    · rw [if_pos ⟨rfl, h0⟩, if_pos h0, ceilDivInt_eq_rat_ceil hwsI]
      congr 2
      push_cast
      ring
  · intro npShuffle
    exact ⟨rfl, by decide⟩
  · intro npShuffle c hperm hws hdl h32
    refine ⟨_, buildGlobalIndices_eq_some npShuffle hperm c hws h32, ?_⟩
    rw [paddedOrTruncated_length npShuffle hperm c hws, hdl]
    unfold totalSizeNat
    have hnn := totalSizeInt_nonneg c.length c.worldSize true hws
    omega

/-- Witness for C3: the formula at `length = 7, world_size = 3`, the concrete
17/4 scenario, and exact output length at `length = 5, world_size = 2` with a
shuffling PRNG. -/
theorem c3_drop_last_total_size_witness :
    0 < 3 ∧ 0 < 2 ∧ (5 : Nat) < 2 ^ 32 - 1 ∧
      (totalSizeInt 7 3 true =
        (if 7 % 3 ≠ 0 then ⌈((((7 : Nat) : Int) : ℚ) - (((3 : Nat) : Int) : ℚ)) / (((3 : Nat) : Int) : ℚ)⌉
         else ⌈(((7 : Nat) : Int) : ℚ) / (((3 : Nat) : Int) : ℚ)⌉) * ((3 : Nat) : Int)) ∧
      (buildGlobalIndices (fun _ l => l.reverse) ⟨17, 4, 0, 0, 0, false, true, 4, 0, 0⟩ =
        some (List.range 16) ∧ totalSizeInt 17 4 true = 16) ∧
      (∃ arr, buildGlobalIndices (fun _ l => l.reverse) ⟨5, 2, 0, 0, 0, true, true, 2, 0, 0⟩ =
        some arr ∧ (arr.length : Int) = totalSizeInt 5 2 true) :=
  ⟨by decide, by decide, by decide,
    c3_drop_last_total_size.1 7 3 (by decide),
    c3_drop_last_total_size.2.1 (fun _ l => l.reverse),
    c3_drop_last_total_size.2.2 (fun _ l => l.reverse) ⟨5, 2, 0, 0, 0, true, true, 2, 0, 0⟩
      (fun _ l => List.reverse_perm l) (by decide) rfl (by decide)⟩

/-- C5: for every dataset length ≥ 1 and world size ≥ 1 (within the `uint32`
bound), with `drop_last = false` the generated array has
`total_size = ceil(length/world_size) * world_size` and contains every
original index at least once (padding repeats a prefix of the ordered
sequence); with `drop_last = true` every value of the generated array is an
original index occurring exactly once (the array is duplicate-free). -/
theorem c5_coverage (npShuffle : Nat → List Nat → List Nat) (c : Config)
    (hperm : ∀ s l, (npShuffle s l).Perm l) (hws : 0 < c.worldSize)
    (_hpos : 1 ≤ c.length) (h32 : c.length < 2 ^ 32 - 1) :
    (c.dropLast = false →
      totalSizeInt c.length c.worldSize false =
        ⌈((c.length : Int) : ℚ) / ((c.worldSize : Int) : ℚ)⌉ * (c.worldSize : Int) ∧
      ∃ arr, buildGlobalIndices npShuffle c = some arr ∧
        (arr.length : Int) = totalSizeInt c.length c.worldSize false ∧
        ∀ i, i < c.length → i ∈ arr) ∧
    (c.dropLast = true →
      ∃ arr, buildGlobalIndices npShuffle c = some arr ∧
        arr.Nodup ∧ ∀ v ∈ arr, v < c.length ∧ arr.count v = 1) := by
  have hwsI : (0 : Int) < (c.worldSize : Int) := by exact_mod_cast hws
  constructor
  · intro hdl
    constructor
    · unfold totalSizeInt numSamplesInt
      rw [if_neg (by simp), ceilDivInt_eq_rat_ceil hwsI]
    · refine ⟨_, buildGlobalIndices_eq_some npShuffle hperm c hws h32, ?_, ?_⟩
      · rw [paddedOrTruncated_length npShuffle hperm c hws, hdl]
        unfold totalSizeNat
        have hnn := totalSizeInt_nonneg c.length c.worldSize false hws
        omega
      · intro i hi
        exact mem_paddedOrTruncated_of_lt npShuffle hperm c hdl hi
  · intro hdl
    refine ⟨_, buildGlobalIndices_eq_some npShuffle hperm c hws h32, ?_, ?_⟩
    · exact paddedOrTruncated_nodup npShuffle hperm c hdl
    · intro v hv
      exact ⟨mem_paddedOrTruncated_lt npShuffle hperm c hv,
        List.count_eq_one_of_mem (paddedOrTruncated_nodup npShuffle hperm c hdl) hv⟩

/-- Witness for C5 at `length = 5`, `world_size = 2`, `drop_last = false`,
with a shuffling PRNG. -/
theorem c5_coverage_witness :
    0 < 2 ∧ 1 ≤ 5 ∧ (5 : Nat) < 2 ^ 32 - 1 ∧
      ((false = false →
        totalSizeInt 5 2 false =
          ⌈(((5 : Nat) : Int) : ℚ) / (((2 : Nat) : Int) : ℚ)⌉ * ((2 : Nat) : Int) ∧
        ∃ arr, buildGlobalIndices (fun _ l => l.reverse)
            ⟨5, 2, 0, 0, 0, true, false, 2, 0, 0⟩ = some arr ∧
          (arr.length : Int) = totalSizeInt 5 2 false ∧
          ∀ i, i < 5 → i ∈ arr) ∧
      (false = true →
        ∃ arr, buildGlobalIndices (fun _ l => l.reverse)
            ⟨5, 2, 0, 0, 0, true, false, 2, 0, 0⟩ = some arr ∧
          arr.Nodup ∧ ∀ v ∈ arr, v < 5 ∧ arr.count v = 1)) :=
  ⟨by decide, by decide, by decide,
    c5_coverage (fun _ l => l.reverse) ⟨5, 2, 0, 0, 0, true, false, 2, 0, 0⟩
      (fun _ l => List.reverse_perm l) (by decide) (by decide) (by decide)⟩

/-- C8, counterexample: the claim says loading also fails when the caller's
expected `total_size` disagrees with the length implied by the file.  The
code performs no such check: an 8-byte file (implied length 2) is loaded
successfully and silently even when the caller expects `total_size = 4`. -/
theorem c8_counterexample :
    (loadIndexFile [0, 0, 0, 0, 1, 0, 0, 0]).isSome = true ∧
      (decodeU32LE [0, 0, 0, 0, 1, 0, 0, 0]).length = 2 ∧ (2 : Nat) ≠ 4 := by
  decide

/-- C8, amended: loading the persisted index file fails when the file's byte
length is not a multiple of 4 (numpy's item-size check) and also when the
file is empty (`mmap` refuses zero-byte mappings); every nonempty size-aligned
file is decoded and returned silently with implied length `bytes / 4`, with
no consistency check against the caller's expected `total_size`. -/
theorem c8_load_validation (bytes : List Nat) :
    (bytes.length % 4 ≠ 0 → loadIndexFile bytes = none) ∧
    (bytes.length = 0 → loadIndexFile bytes = none) ∧
    (bytes.length % 4 = 0 → bytes.length ≠ 0 →
      loadIndexFile bytes = some (decodeU32LE bytes) ∧
      (decodeU32LE bytes).length = bytes.length / 4) := by
  refine ⟨?_, ?_, ?_⟩
  · intro h
    unfold loadIndexFile
    rw [if_neg h]
  · intro h
    unfold loadIndexFile
    rw [if_pos (by omega), if_pos h]
  · intro h hne
    unfold loadIndexFile
    rw [if_pos h, if_neg hne]
    exact ⟨rfl, length_decodeU32LE bytes⟩

/-- Witness for C8 (amended): a 3-byte file and an empty file are rejected;
a 4-byte file is decoded with implied length 1. -/
theorem c8_load_validation_witness :
    loadIndexFile [1, 2, 3] = none ∧
      loadIndexFile [] = none ∧
      loadIndexFile [7, 0, 0, 0] = some (decodeU32LE [7, 0, 0, 0]) ∧
      (decodeU32LE [7, 0, 0, 0]).length = ([7, 0, 0, 0] : List Nat).length / 4 :=
  ⟨(c8_load_validation [1, 2, 3]).1 (by decide),
    (c8_load_validation []).2.1 (by decide),
    ((c8_load_validation [7, 0, 0, 0]).2.2 (by decide) (by decide)).1,
    ((c8_load_validation [7, 0, 0, 0]).2.2 (by decide) (by decide)).2⟩

/-- C9, counterexample: the claim asserts that persistence writes a file of
byte length `4 * total_size` for every generated array.  With `length = 2`,
`world_size = 3`, `drop_last = true` (a leader process, `local_rank = 0`)
generation succeeds with the empty array (`total_size = 0`), but the
`uint32` memmap write raises on a zero-length mapping instead of writing a
0-byte file. -/
theorem c9_counterexample :
    buildGlobalIndices (fun _ l => l) ⟨2, 3, 0, 0, 0, false, true, 3, 0, 0⟩ = some [] ∧
      buildAndSaveGlobalIndices (fun _ l => l) ⟨2, 3, 0, 0, 0, false, true, 3, 0, 0⟩ = none := by
  constructor
  · decide
  · decide

/-- C9, amended: persistence happens only on the local leader
(`local_rank = 0`); whenever the generated array is nonempty
(`total_size > 0`) the written file is exactly the generated array
serialised as `total_size` little-endian 32-bit unsigned integers, so its
byte length is `4 * total_size` and decoding it recovers the array element
for element; when `total_size = 0` the memmap write fails instead of
writing an empty file. -/
theorem c9_persistence (npShuffle : Nat → List Nat → List Nat) (c : Config)
    (hperm : ∀ s l, (npShuffle s l).Perm l) (hws : 0 < c.worldSize) :
    (c.localRank = 0 → c.length < 2 ^ 32 - 1 →
      0 < totalSizeNat c.length c.worldSize c.dropLast →
      ∃ arr, buildGlobalIndices npShuffle c = some arr ∧
        buildAndSaveGlobalIndices npShuffle c = some (encodeU32LE arr) ∧
        (encodeU32LE arr).length = 4 * totalSizeNat c.length c.worldSize c.dropLast ∧
        decodeU32LE (encodeU32LE arr) = arr) ∧
    (c.localRank = 0 → c.length < 2 ^ 32 - 1 →
      totalSizeNat c.length c.worldSize c.dropLast = 0 →
      buildAndSaveGlobalIndices npShuffle c = none) ∧
    (c.localRank ≠ 0 → buildAndSaveGlobalIndices npShuffle c = none) := by
  refine ⟨?_, ?_, ?_⟩
  · intro hlr h32 hTpos
    refine ⟨_, buildGlobalIndices_eq_some npShuffle hperm c hws h32, ?_, ?_, ?_⟩
    · unfold buildAndSaveGlobalIndices
      rw [if_pos hlr, buildGlobalIndices_eq_some npShuffle hperm c hws h32]
      show (if (paddedOrTruncated c (shuffledIndices npShuffle c)).length = 0 then none
            else some (encodeU32LE (paddedOrTruncated c (shuffledIndices npShuffle c)))) = _
      rw [if_neg (by rw [paddedOrTruncated_length npShuffle hperm c hws]; omega)]
    · rw [length_encodeU32LE, paddedOrTruncated_length npShuffle hperm c hws]
    · refine decodeU32LE_encodeU32LE _ ?_
      intro v hv
      have := mem_paddedOrTruncated_lt npShuffle hperm c hv
      omega
  · intro hlr h32 hT0
    unfold buildAndSaveGlobalIndices
    rw [if_pos hlr, buildGlobalIndices_eq_some npShuffle hperm c hws h32]
    show (if (paddedOrTruncated c (shuffledIndices npShuffle c)).length = 0 then none
          else some (encodeU32LE (paddedOrTruncated c (shuffledIndices npShuffle c)))) = none
    rw [if_pos (by rw [paddedOrTruncated_length npShuffle hperm c hws]; omega)]
  · intro hlr
    unfold buildAndSaveGlobalIndices
    rw [if_neg hlr]

/-- Witness for C9 at `length = 3`, `world_size = 1`, local leader
(`total_size = 3 > 0`). -/
theorem c9_persistence_witness :
    0 < 1 ∧ 0 < totalSizeNat 3 1 false ∧
      ((0 = 0 → (3 : Nat) < 2 ^ 32 - 1 → 0 < totalSizeNat 3 1 false →
        ∃ arr, buildGlobalIndices (fun _ l => l.reverse)
            ⟨3, 1, 0, 0, 0, true, false, 1, 0, 0⟩ = some arr ∧
          buildAndSaveGlobalIndices (fun _ l => l.reverse)
            ⟨3, 1, 0, 0, 0, true, false, 1, 0, 0⟩ = some (encodeU32LE arr) ∧
          (encodeU32LE arr).length = 4 * totalSizeNat 3 1 false ∧
          decodeU32LE (encodeU32LE arr) = arr) ∧
      (0 = 0 → (3 : Nat) < 2 ^ 32 - 1 → totalSizeNat 3 1 false = 0 →
        buildAndSaveGlobalIndices (fun _ l => l.reverse)
          ⟨3, 1, 0, 0, 0, true, false, 1, 0, 0⟩ = none) ∧
      ((0 : Nat) ≠ 0 → buildAndSaveGlobalIndices (fun _ l => l.reverse)
          ⟨3, 1, 0, 0, 0, true, false, 1, 0, 0⟩ = none)) :=
  ⟨by decide, by decide,
    c9_persistence (fun _ l => l.reverse) ⟨3, 1, 0, 0, 0, true, false, 1, 0, 0⟩
      (fun _ l => List.reverse_perm l) (by decide)⟩

/-- C10: index generation asserts `length < 2^32 - 1` (the `uint32` maximum)
as a precondition — any longer dataset makes generation fail rather than
producing wrapped indices — and under that precondition generation succeeds
with every generated value fitting in 32 bits. -/
theorem c10_uint32_bound (npShuffle : Nat → List Nat → List Nat) (c : Config)
    (hperm : ∀ s l, (npShuffle s l).Perm l) (hws : 0 < c.worldSize) :
    (c.length < 2 ^ 32 - 1 →
      ∃ arr, buildGlobalIndices npShuffle c = some arr ∧ ∀ v ∈ arr, v < 2 ^ 32) ∧
    (2 ^ 32 - 1 ≤ c.length → buildGlobalIndices npShuffle c = none) := by
  constructor
  · intro h32
    refine ⟨_, buildGlobalIndices_eq_some npShuffle hperm c hws h32, ?_⟩
    intro v hv
    have := mem_paddedOrTruncated_lt npShuffle hperm c hv
    omega
  · intro hge
    unfold buildGlobalIndices
    rw [if_neg (by omega)]

/-- Witness for C10 at `length = 3`, `world_size = 1`. -/
theorem c10_uint32_bound_witness :
    0 < 1 ∧ (3 : Nat) < 2 ^ 32 - 1 ∧
      ∃ arr, buildGlobalIndices (fun _ l => l.reverse)
          ⟨3, 1, 0, 0, 0, true, false, 1, 0, 0⟩ = some arr ∧ ∀ v ∈ arr, v < 2 ^ 32 :=
  ⟨by decide, by decide,
    (c10_uint32_bound (fun _ l => l.reverse) ⟨3, 1, 0, 0, 0, true, false, 1, 0, 0⟩
      (fun _ l => List.reverse_perm l) (by decide)).1 (by decide)⟩

end DistSampling
